import Mathlib

/-
Verification of the DDSketch quantile-sketch core (config.rs and ddsketch.rs).

Embedding conventions:
* `f64` values are modelled as real numbers; the `±INFINITY` sentinels that the
  sketch stores in its `min`/`max` fields (and that `lower_bound` can return)
  are modelled with `EReal` (`⊤` is `+∞`, `⊥` is `-∞`).  IEEE rounding and NaN
  are outside the scope of the properties considered here.
* `i32`/`u32`/`u64`/`usize` are modelled as `ℤ`/`ℕ`.  Two's-complement
  wrapping is modelled explicitly where it is significant, namely in the
  negation performed by `Config::lower_bound` (`i32neg`).  The numeric casts
  `as i32` / `as u64` of the source are modelled as truncation toward zero
  (`i32trunc`, and `Int.toNat ∘ Int.floor` for nonnegative values, which also
  captures the saturation of negative values to 0).
-/

namespace DDS

/-- Truncation of a real toward zero, modelling the Rust `as i32` cast of a
finite value (saturation at the i32 bounds is not modelled). -/
noncomputable def i32trunc (x : ℝ) : ℤ := if 0 ≤ x then ⌊x⌋ else ⌈x⌉

/-- `fn log_gamma(value: f64, gamma_ln: f64) -> f64` from config.rs. -/
noncomputable def log_gamma (value gammaLn : ℝ) : ℝ := Real.log value / gammaLn

/-- The `Config` struct from config.rs. -/
structure Config where
  max_num_bins : ℕ
  gamma : ℝ
  gamma_ln : ℝ
  min_value : ℝ
  offset : ℤ

/-- `Config::new` from config.rs.  `ln_1p x` is modelled as `Real.log (1 + x)`,
which it computes exactly over the reals. -/
noncomputable def Config.new (alpha : ℝ) (max_num_bins : ℕ) (min_value : ℝ) : Config :=
  let gamma_ln := Real.log (1 + 2 * alpha / (1 - alpha))
  { max_num_bins := max_num_bins
    gamma := 1 + 2 * alpha / (1 - alpha)
    gamma_ln := gamma_ln
    min_value := min_value
    offset := 1 - i32trunc (log_gamma min_value gamma_ln) }

/-- `Config::defaults` from config.rs. -/
noncomputable def Config.defaults : Config := Config.new 0.01 2048 1e-9

/-- `Config::agent_defaults` from config.rs. -/
noncomputable def Config.agent_defaults : Config := Config.new (1 / 128) 4096 1e-9

/-- The method `Config::log_gamma` from config.rs. -/
noncomputable def Config.log_gamma (c : Config) (value : ℝ) : ℝ :=
  DDS.log_gamma value c.gamma_ln

/-- `Config::pow_gamma` from config.rs: `((k as f64) * self.gamma_ln).exp()`. -/
noncomputable def Config.pow_gamma (c : Config) (k : ℤ) : ℝ :=
  Real.exp ((k : ℝ) * c.gamma_ln)

/-- `Config::key` from config.rs.  The `.ceil() as i32` cast is the identity on
the (integral) ceiling value apart from saturation, which is not modelled. -/
noncomputable def Config.key (c : Config) (v : ℝ) : ℤ :=
  if v < -c.min_value then -⌈c.log_gamma (-v)⌉ - c.offset
  else if v > c.min_value then ⌈c.log_gamma v⌉ + c.offset
  else 0

/-- `Config::min_key` from config.rs. -/
noncomputable def Config.min_key (c : Config) : ℤ := c.key c.min_value

/-- `i32::MIN`. -/
def i32min : ℤ := -(2 ^ 31)

/-- `i32::MAX` (`i32::max_value()` in config.rs). -/
def i32max : ℤ := 2 ^ 31 - 1

/-- i32 negation with two's-complement wrapping: negating `i32::MIN` yields
`i32::MIN` again (in a release build; a debug build panics). -/
def i32neg (k : ℤ) : ℤ := if k = i32min then i32min else -k

/-- Fuel-indexed unfolding of the recursive `Config::lower_bound` from
config.rs.  The recursion of the source is not structurally decreasing (the
wrapped negation maps `i32::MIN` to itself), so it is embedded with explicit
fuel; `none` means the fuel was exhausted without the source returning. -/
noncomputable def lowerBoundFuel (c : Config) : ℕ → ℤ → Option EReal
  | 0, _ => none
  | fuel + 1, key =>
    if key < 0 then (lowerBoundFuel c fuel (i32neg key)).map (fun x => -x)
    else if key = i32max then some ⊤
    else if key = 0 then some ((0 : ℝ) : EReal)
    else some ((c.pow_gamma (key - c.offset) : ℝ) : EReal)

/-- `Config::lower_bound` from config.rs.  Fuel 2 covers every terminating
call: a negative key is negated once and the nonnegative branch does not
recurse.  On the sole non-terminating input (`i32::MIN`) this total model
returns the default `0`. -/
noncomputable def Config.lower_bound (c : Config) (key : ℤ) : EReal :=
  (lowerBoundFuel c 2 key).getD 0

/-- Modelled from the spec: the repository's bucket store (src/store.rs) is not
among the provided sources — only its callers in ddsketch.rs are.  Following
spec §4.2, the store is a contiguous counting structure over keys, here a
key-sorted association list of `(key, count)` bins together with the capacity
parameter.  The capacity/collapsing policy of spec §4.2 changes which keys are
materialized but never the total count; none of the verified claims depends on
it, so it is not modelled. -/
structure Store where
  maxBins : ℤ
  bins : List (ℤ × ℕ)

/-- Modelled from the spec: `Store::new`, an empty store. -/
def Store.new (maxBins : ℤ) : Store := ⟨maxBins, []⟩

/-- Insertion into a key-sorted association list, adding `n` to the count of an
existing bin for the key. -/
def insertBin : List (ℤ × ℕ) → ℤ → ℕ → List (ℤ × ℕ)
  | [], k, n => [(k, n)]
  | (k0, c0) :: rest, k, n =>
    if k < k0 then (k, n) :: (k0, c0) :: rest
    else if k = k0 then (k0, c0 + n) :: rest
    else (k0, c0) :: insertBin rest k n

/-- Modelled from the spec: `Store::add` increments the count at `key` by
`count` (spec §4.2). -/
def Store.add (s : Store) (key : ℤ) (count : ℕ) : Store :=
  { s with bins := insertBin s.bins key count }

/-- Modelled from the spec: `Store::count`, the total of all bucket counts. -/
def Store.count (s : Store) : ℕ := (s.bins.map Prod.snd).sum

/-- Ordered scan of spec §4.2's `key_at_rank`: walk the bins in ascending key
order accumulating counts and return the first key whose cumulative count
reaches the rank (here: subtract each passed count from the remaining rank). -/
def keyAtRankGo : ℕ → List (ℤ × ℕ) → ℤ
  | _, [] => 0
  | rank, (k, c) :: rest => if rank ≤ c then k else keyAtRankGo (rank - c) rest

/-- Modelled from the spec: `Store::key_at_rank`, the smallest key whose
cumulative count is at least the (1-indexed) rank. -/
def Store.key_at_rank (s : Store) (rank : ℕ) : ℤ := keyAtRankGo rank s.bins

/-- Modelled from the spec: `Store::merge` applies `add(key, count)` to `self`
for every bin of the other store. -/
def Store.merge (s o : Store) : Store :=
  o.bins.foldl (fun acc p => acc.add p.1 p.2) s

/-- Modelled from the spec: `Store::length`, the number of materialized bins. -/
def Store.length (s : Store) : ℕ := s.bins.length

/-- The `DDSketchError` enum from ddsketch.rs. -/
inductive DDSketchError where
  | Quantile
  | Merge

/-- The `DDSketch` struct from ddsketch.rs. -/
structure DDSketch where
  config : Config
  store : Store
  min : EReal
  max : EReal
  sum : EReal

/-- `DDSketch::new` from ddsketch.rs: empty store, `min = +∞`, `max = -∞`,
`sum = 0`. -/
def DDSketch.new (config : Config) : DDSketch :=
  { config := config
    store := Store.new (config.max_num_bins : ℤ)
    min := ⊤
    max := ⊥
    sum := 0 }

/-- `DDSketch::add` from ddsketch.rs. -/
noncomputable def DDSketch.add (s : DDSketch) (v : ℝ) : DDSketch :=
  let key := s.config.key v
  { s with
    store := s.store.add key 1
    min := if (v : EReal) < s.min then (v : EReal) else s.min
    max := if s.max < (v : EReal) then (v : EReal) else s.max
    sum := s.sum + (v : EReal) }

/-- `DDSketch::add_n` from ddsketch.rs. -/
noncomputable def DDSketch.add_n (s : DDSketch) (v : ℝ) (n : ℕ) : DDSketch :=
  let key := s.config.key v
  { s with
    store := s.store.add key n
    min := if (v : EReal) < s.min then (v : EReal) else s.min
    max := if s.max < (v : EReal) then (v : EReal) else s.max
    sum := s.sum + ((v * (n : ℝ) : ℝ) : EReal) }

/-- `DDSketch::add_key_n` from ddsketch.rs. -/
noncomputable def DDSketch.add_key_n (s : DDSketch) (k : ℤ) (n : ℕ) : DDSketch :=
  let lower_bound := s.config.lower_bound k
  { s with
    store := s.store.add k n
    min := if lower_bound < s.min then lower_bound else s.min
    max := if s.max < lower_bound then lower_bound else s.max
    sum := s.sum + lower_bound * (n : EReal) }

/-- `DDSketch::count` from ddsketch.rs. -/
def DDSketch.count (s : DDSketch) : ℕ := s.store.count

/-- `DDSketch::len` from ddsketch.rs. -/
def DDSketch.len (s : DDSketch) : ℕ := s.store.length

/-- `DDSketch::is_empty` from ddsketch.rs (also the private `empty`). -/
def DDSketch.is_empty (s : DDSketch) : Bool := s.count == 0

/-- `DDSketch::quantile` from ddsketch.rs.  The cast
`(q * ((count - 1) as f64) + 1.0) as u64` is truncation toward zero of a
nonnegative value, i.e. `Int.toNat ∘ Int.floor`; the `key += offset` /
`key -= offset` mutations of the source are inlined into the two branches. -/
noncomputable def DDSketch.quantile (s : DDSketch) (q : ℝ) : Option EReal :=
  if s.count = 0 then none
  else if q ≤ 0 then some s.min
  else if 1 ≤ q then some s.max
  else
    let rank : ℕ := (⌊q * ((s.count - 1 : ℕ) : ℝ) + 1⌋).toNat
    let key : ℤ := s.store.key_at_rank rank
    let quantile : ℝ :=
      if key < 0 then
        -2 * s.config.pow_gamma (-(key + s.config.offset)) / (1 + s.config.gamma)
      else if 0 < key then
        2 * s.config.pow_gamma (key - s.config.offset) / (1 + s.config.gamma)
      else 0
    let bounded : EReal :=
      if (quantile : EReal) < s.min then s.min
      else if s.max < (quantile : EReal) then s.max
      else (quantile : EReal)
    some bounded

/-- `DDSketch::min` from ddsketch.rs (the accessor, not the field). -/
def DDSketch.min? (s : DDSketch) : Option EReal :=
  if s.count = 0 then none else some s.min

/-- `DDSketch::max` from ddsketch.rs (the accessor, not the field). -/
def DDSketch.max? (s : DDSketch) : Option EReal :=
  if s.count = 0 then none else some s.max

/-- `DDSketch::sum` from ddsketch.rs (the accessor, not the field). -/
def DDSketch.sum? (s : DDSketch) : Option EReal :=
  if s.count = 0 then none else some s.sum

/-- `DDSketch::merge` from ddsketch.rs, in state-passing form: the first
component is the state of `self` after the call (unchanged when the
configuration check fails, mirroring the early `return Err`), the second the
returned error, if any. -/
noncomputable def DDSketch.merge (s : DDSketch) (o : DDSketch) :
    DDSketch × Option DDSketchError :=
  haveI := Classical.propDecidable (s.config = o.config)
  if s.config = o.config then
    let was_empty := s.store.count = 0
    let store := s.store.merge o.store
    let mn :=
      if was_empty then o.min
      else if 0 < o.store.count then (if o.min < s.min then o.min else s.min)
      else s.min
    let mx :=
      if was_empty then o.max
      else if 0 < o.store.count then (if s.max < o.max then o.max else s.max)
      else s.max
    ({ config := s.config, store := store, min := mn, max := mx,
       sum := s.sum + o.sum }, none)
  else (s, some DDSketchError.Merge)

/-- The sketch states reachable from `DDSketch::new` by the four mutating
operations of ddsketch.rs (with arbitrary `u64` repeat counts). -/
inductive Reachable : DDSketch → Prop
  | new : ∀ c : Config, Reachable (DDSketch.new c)
  | add : ∀ s v, Reachable s → Reachable (DDSketch.add s v)
  | add_n : ∀ s v n, Reachable s → Reachable (DDSketch.add_n s v n)
  | add_key_n : ∀ s k n, Reachable s → Reachable (DDSketch.add_key_n s k n)
  | merge : ∀ s o, Reachable s → Reachable o → Reachable ((DDSketch.merge s o).1)

/-- The sketch states reachable from `DDSketch::new` when every `add_n` /
`add_key_n` call has a positive repeat count. -/
inductive ReachablePos : DDSketch → Prop
  | new : ∀ c : Config, ReachablePos (DDSketch.new c)
  | add : ∀ s v, ReachablePos s → ReachablePos (DDSketch.add s v)
  | add_n : ∀ s v n, 1 ≤ n → ReachablePos s → ReachablePos (DDSketch.add_n s v n)
  | add_key_n : ∀ s k n, 1 ≤ n → ReachablePos s → ReachablePos (DDSketch.add_key_n s k n)
  | merge : ∀ s o, ReachablePos s → ReachablePos o →
      ReachablePos ((DDSketch.merge s o).1)

/-! ### Helper lemmas -/

theorem Config.pow_gamma_eq (c : Config) (hg : c.gamma_ln = Real.log c.gamma)
    (hγ : 0 < c.gamma) (k : ℤ) : c.pow_gamma k = c.gamma ^ k := by
  unfold Config.pow_gamma
  rw [hg, mul_comm, ← Real.rpow_def_of_pos hγ, Real.rpow_intCast]

theorem insertBin_sum (l : List (ℤ × ℕ)) (k : ℤ) (n : ℕ) :
    ((insertBin l k n).map Prod.snd).sum = (l.map Prod.snd).sum + n := by
  induction l with
  | nil => simp [insertBin]
  | cons hd tl ih =>
    obtain ⟨k0, c0⟩ := hd
    simp only [insertBin]
    split
    · simp only [List.map_cons, List.sum_cons]; omega
    · split
      · simp only [List.map_cons, List.sum_cons]; omega
      · simp only [List.map_cons, List.sum_cons, ih]; omega

theorem Store.add_count (s : Store) (k : ℤ) (n : ℕ) :
    (s.add k n).count = s.count + n :=
  insertBin_sum s.bins k n

theorem foldl_add_count (l : List (ℤ × ℕ)) :
    ∀ s : Store, (l.foldl (fun acc p => acc.add p.1 p.2) s).count
      = s.count + (l.map Prod.snd).sum := by
  induction l with
  | nil => intro s; simp
  | cons hd tl ih =>
    intro s
    simp only [List.foldl_cons, List.map_cons, List.sum_cons, ih, Store.add_count]
    omega

theorem Store.count_merge (s o : Store) :
    (s.merge o).count = s.count + o.count :=
  foldl_add_count o.bins s

theorem DDSketch.count_add (s : DDSketch) (v : ℝ) :
    (s.add v).count = s.count + 1 :=
  Store.add_count s.store (s.config.key v) 1

theorem DDSketch.count_add_n (s : DDSketch) (v : ℝ) (n : ℕ) :
    (s.add_n v n).count = s.count + n :=
  Store.add_count s.store (s.config.key v) n

theorem DDSketch.count_add_key_n (s : DDSketch) (k : ℤ) (n : ℕ) :
    (s.add_key_n k n).count = s.count + n :=
  Store.add_count s.store k n

theorem DDSketch.merge_of_ne (s o : DDSketch) (h : s.config ≠ o.config) :
    s.merge o = (s, some DDSketchError.Merge) := by
  unfold DDSketch.merge
  rw [if_neg h]

theorem DDSketch.merge_of_eq (s o : DDSketch) (h : s.config = o.config) :
    s.merge o =
      ({ config := s.config
         store := s.store.merge o.store
         min :=
           if s.store.count = 0 then o.min
           else if 0 < o.store.count then (if o.min < s.min then o.min else s.min)
           else s.min
         max :=
           if s.store.count = 0 then o.max
           else if 0 < o.store.count then (if s.max < o.max then o.max else s.max)
           else s.max
         sum := s.sum + o.sum }, none) := by
  unfold DDSketch.merge
  rw [if_pos h]

theorem lowerBoundFuel_nonneg (c : Config) (k : ℤ) (h : 0 ≤ k) (fuel : ℕ) :
    lowerBoundFuel c (fuel + 1) k =
      some (if k = i32max then (⊤ : EReal)
        else if k = 0 then ((0 : ℝ) : EReal)
        else ((c.pow_gamma (k - c.offset) : ℝ) : EReal)) := by
  rw [lowerBoundFuel, if_neg (not_lt.mpr h)]
  split
  · rfl
  · split
    · rfl
    · rfl

/-! ### Claims -/

/-- Claim C7: for a sketch with no samples (`count() == 0`), `quantile(q)`
returns `None` for every `q`, and `min()`, `max()`, `sum()` each return
`None`. -/
theorem empty_laws_c7 (s : DDSketch) (h : s.count = 0) :
    (∀ q : ℝ, s.quantile q = none) ∧
    s.min? = none ∧ s.max? = none ∧ s.sum? = none := by
  refine ⟨fun q => ?_, ?_, ?_, ?_⟩ <;>
    simp [DDSketch.quantile, DDSketch.min?, DDSketch.max?, DDSketch.sum?, h]

theorem empty_laws_c7_witness :
    (DDSketch.new Config.defaults).count = 0 ∧
    (DDSketch.new Config.defaults).quantile 0.5 = none ∧
    (DDSketch.new Config.defaults).min? = none ∧
    (DDSketch.new Config.defaults).max? = none ∧
    (DDSketch.new Config.defaults).sum? = none := by
  have h : (DDSketch.new Config.defaults).count = 0 := rfl
  have := empty_laws_c7 (DDSketch.new Config.defaults) h
  exact ⟨h, this.1 0.5, this.2.1, this.2.2.1, this.2.2.2⟩

/-- Claim C8: for every non-empty sketch, `quantile(q)` returns the tracked
exact minimum for every `q ≤ 0` and the tracked exact maximum for every
`q ≥ 1`. -/
theorem quantile_extremes_c8 (s : DDSketch) (h : s.count ≠ 0) :
    (∀ q : ℝ, q ≤ 0 → s.quantile q = s.min?) ∧
    (∀ q : ℝ, 1 ≤ q → s.quantile q = s.max?) := by
  constructor
  · intro q hq
    rw [DDSketch.quantile, DDSketch.min?, if_neg h, if_neg h, if_pos hq]
  · intro q hq
    have hq0 : ¬ q ≤ 0 := by linarith
    rw [DDSketch.quantile, DDSketch.max?, if_neg h, if_neg h, if_neg hq0, if_pos hq]

theorem quantile_extremes_c8_witness :
    ((DDSketch.new Config.defaults).add_key_n 1 1).count ≠ 0 ∧
    ((DDSketch.new Config.defaults).add_key_n 1 1).quantile (-1)
      = ((DDSketch.new Config.defaults).add_key_n 1 1).min? ∧
    ((DDSketch.new Config.defaults).add_key_n 1 1).quantile 2
      = ((DDSketch.new Config.defaults).add_key_n 1 1).max? := by
  have h : ((DDSketch.new Config.defaults).add_key_n 1 1).count ≠ 0 := by
    rw [DDSketch.count_add_key_n]; omega
  have := quantile_extremes_c8 _ h
  exact ⟨h, this.1 (-1) (by norm_num), this.2 2 (by norm_num)⟩

/-- Claim C2: `merge` returns the merge-incompatibility error if and only if
the two sketches' configurations differ, and in the error case the receiving
sketch's entire state is exactly what it was before the call. -/
theorem merge_err_iff_c2 (s o : DDSketch) :
    ((s.merge o).2 = some DDSketchError.Merge ↔ s.config ≠ o.config) ∧
    (s.config ≠ o.config → (s.merge o).1 = s) := by
  by_cases h : s.config = o.config
  · rw [DDSketch.merge_of_eq s o h]
    constructor
    · simp [h]
    · intro hc; exact absurd h hc
  · rw [DDSketch.merge_of_ne s o h]
    exact ⟨by simp [h], fun _ => rfl⟩

theorem merge_err_iff_c2_witness :
    (((DDSketch.new (Config.new 0.01 2048 1e-9)).merge
        (DDSketch.new (Config.new 0.01 1024 1e-9))).2 = some DDSketchError.Merge) ∧
    (((DDSketch.new (Config.new 0.01 2048 1e-9)).merge
        (DDSketch.new (Config.new 0.01 1024 1e-9))).1
      = DDSketch.new (Config.new 0.01 2048 1e-9)) := by
  have hne : (DDSketch.new (Config.new 0.01 2048 1e-9)).config
      ≠ (DDSketch.new (Config.new 0.01 1024 1e-9)).config := by
    intro h
    have h2 := congrArg Config.max_num_bins h
    simp [DDSketch.new, Config.new] at h2
  exact ⟨(merge_err_iff_c2 _ _).1.mpr hne, (merge_err_iff_c2 _ _).2 hne⟩

/-- Claim C5: after a successful merge the receiver's min and max are combined
only from the operand(s) that held samples — an empty operand never overwrites
the receiver's min/max with its sentinel infinities, and an empty receiver
takes the operand's min/max — while the sums are added unconditionally. -/
theorem merge_minmax_c5 (s o : DDSketch) (hc : s.config = o.config) :
    (s.merge o).2 = none ∧
    (s.store.count = 0 → (s.merge o).1.min = o.min ∧ (s.merge o).1.max = o.max) ∧
    (s.store.count ≠ 0 → o.store.count = 0 →
      (s.merge o).1.min = s.min ∧ (s.merge o).1.max = s.max) ∧
    (s.store.count ≠ 0 → o.store.count ≠ 0 →
      (s.merge o).1.min = min s.min o.min ∧ (s.merge o).1.max = max s.max o.max) ∧
    (s.merge o).1.sum = s.sum + o.sum := by
  have hmin : ∀ a b : EReal, (if a < b then a else b) = min b a := by
    intro a b
    rcases lt_or_le a b with h | h
    · rw [if_pos h, min_eq_right h.le]
    · rw [if_neg (not_lt.mpr h), min_eq_left h]
  have hmax : ∀ a b : EReal, (if a < b then b else a) = max a b := by
    intro a b
    rcases lt_or_le a b with h | h
    · rw [if_pos h, max_eq_right h.le]
    · rw [if_neg (not_lt.mpr h), max_eq_left h]
  rw [DDSketch.merge_of_eq s o hc]
  refine ⟨rfl, ?_, ?_, ?_, rfl⟩
  · intro hs
    constructor <;> · dsimp only; rw [if_pos hs]
  · intro hs ho
    have hno : ¬ 0 < o.store.count := by omega
    constructor <;> · dsimp only; rw [if_neg hs, if_neg hno]
  · intro hs ho
    have hpo : 0 < o.store.count := Nat.pos_of_ne_zero ho
    constructor
    · dsimp only; rw [if_neg hs, if_pos hpo, hmin]
    · dsimp only; rw [if_neg hs, if_pos hpo, hmax]

theorem merge_minmax_c5_witness :
    (((DDSketch.new Config.defaults).add_key_n 1 1).merge
       ((DDSketch.new Config.defaults).add_key_n 2 1)).2 = none ∧
    (((DDSketch.new Config.defaults).add_key_n 1 1).merge
       ((DDSketch.new Config.defaults).add_key_n 2 1)).1.min
      = min ((DDSketch.new Config.defaults).add_key_n 1 1).min
          ((DDSketch.new Config.defaults).add_key_n 2 1).min ∧
    (((DDSketch.new Config.defaults).add_key_n 1 1).merge
       ((DDSketch.new Config.defaults).add_key_n 2 1)).1.max
      = max ((DDSketch.new Config.defaults).add_key_n 1 1).max
          ((DDSketch.new Config.defaults).add_key_n 2 1).max ∧
    (((DDSketch.new Config.defaults).add_key_n 1 1).merge
       ((DDSketch.new Config.defaults).add_key_n 2 1)).1.sum
      = ((DDSketch.new Config.defaults).add_key_n 1 1).sum
        + ((DDSketch.new Config.defaults).add_key_n 2 1).sum := by
  have hs : ((DDSketch.new Config.defaults).add_key_n 1 1).store.count ≠ 0 := by
    show ((DDSketch.new Config.defaults).add_key_n 1 1).count ≠ 0
    rw [DDSketch.count_add_key_n]; omega
  have ho : ((DDSketch.new Config.defaults).add_key_n 2 1).store.count ≠ 0 := by
    show ((DDSketch.new Config.defaults).add_key_n 2 1).count ≠ 0
    rw [DDSketch.count_add_key_n]; omega
  have h := merge_minmax_c5 ((DDSketch.new Config.defaults).add_key_n 1 1)
    ((DDSketch.new Config.defaults).add_key_n 2 1) rfl
  exact ⟨h.1, (h.2.2.2.1 hs ho).1, (h.2.2.2.1 hs ho).2, h.2.2.2.2⟩

/-- Claim C3: `key(v)` returns 0 when `|v| ≤ min_value`, returns
`⌈ln v / ln gamma⌉ + offset` when `v > min_value`, and returns
`-⌈ln (-v) / ln gamma⌉ - offset` when `v < -min_value` (for a well-formed
configuration, whose `gamma_ln` is `ln gamma` and whose `min_value` is
nonnegative, as produced by `Config::new`). -/
theorem key_formula_c3 (c : Config) (hg : c.gamma_ln = Real.log c.gamma)
    (hm : 0 ≤ c.min_value) (v : ℝ) :
    (|v| ≤ c.min_value → c.key v = 0) ∧
    (c.min_value < v → c.key v = ⌈Real.log v / Real.log c.gamma⌉ + c.offset) ∧
    (v < -c.min_value → c.key v = -⌈Real.log (-v) / Real.log c.gamma⌉ - c.offset) := by
  unfold Config.key
  refine ⟨?_, ?_, ?_⟩
  · intro h
    obtain ⟨h1, h2⟩ := abs_le.mp h
    rw [if_neg (not_lt.mpr h1), if_neg (not_lt.mpr h2)]
  · intro h
    have hnm : ¬ v < -c.min_value := by
      have : -c.min_value ≤ 0 := neg_nonpos.mpr hm
      push_neg
      linarith
    rw [if_neg hnm, if_pos h]
    simp only [Config.log_gamma, log_gamma, hg]
  · intro h
    rw [if_pos h]
    simp only [Config.log_gamma, log_gamma, hg]

theorem key_formula_c3_witness :
    Config.defaults.gamma_ln = Real.log Config.defaults.gamma ∧
    (0 : ℝ) ≤ Config.defaults.min_value ∧
    ((|(5 : ℝ)| ≤ Config.defaults.min_value → Config.defaults.key 5 = 0) ∧
     (Config.defaults.min_value < 5 → Config.defaults.key 5
        = ⌈Real.log 5 / Real.log Config.defaults.gamma⌉ + Config.defaults.offset) ∧
     ((5 : ℝ) < -Config.defaults.min_value → Config.defaults.key 5
        = -⌈Real.log (-5) / Real.log Config.defaults.gamma⌉ - Config.defaults.offset)) := by
  have hm : (0 : ℝ) ≤ Config.defaults.min_value := by
    show (0 : ℝ) ≤ (1e-9 : ℝ)
    norm_num
  exact ⟨rfl, hm, key_formula_c3 Config.defaults rfl hm 5⟩

/-- Claim C6: the sign of `key(v)` mirrors the sign of `v` (positive above
`min_value`, negative below `-min_value`, zero on `[-min_value, min_value]`),
and the key is monotone: `key(v1) ≤ key(v2)` whenever `min_value < v1 ≤ v2`,
and symmetrically for negative values (for a well-formed configuration with
positive `min_value`, positive `gamma_ln` and the `offset` computed by
`Config::new`). -/
theorem key_sign_mono_c6 (c : Config) (hm : 0 < c.min_value)
    (hln : 0 < c.gamma_ln)
    (ho : c.offset = 1 - i32trunc (c.log_gamma c.min_value)) :
    (∀ v : ℝ, c.min_value < v → 0 < c.key v) ∧
    (∀ v : ℝ, v < -c.min_value → c.key v < 0) ∧
    (∀ v : ℝ, |v| ≤ c.min_value → c.key v = 0) ∧
    (∀ v1 v2 : ℝ, c.min_value < v1 → v1 ≤ v2 → c.key v1 ≤ c.key v2) ∧
    (∀ v1 v2 : ℝ, v1 ≤ v2 → v2 < -c.min_value → c.key v1 ≤ c.key v2) := by
  have hkeypos : ∀ v : ℝ, c.min_value < v → c.key v = ⌈c.log_gamma v⌉ + c.offset := by
    intro v h
    unfold Config.key
    rw [if_neg (not_lt.mpr (by linarith)), if_pos h]
  have hkeyneg : ∀ v : ℝ, v < -c.min_value → c.key v = -⌈c.log_gamma (-v)⌉ - c.offset := by
    intro v h
    unfold Config.key
    rw [if_pos h]
  have hlogmono : ∀ a b : ℝ, 0 < a → a ≤ b → c.log_gamma a ≤ c.log_gamma b := by
    intro a b ha hab
    simp only [Config.log_gamma, log_gamma]
    exact div_le_div_of_nonneg_right (Real.log_le_log ha hab) hln.le
  have htrunc : ∀ x : ℝ, i32trunc x ≤ ⌈x⌉ := by
    intro x
    unfold i32trunc
    split
    · exact Int.floor_le_ceil x
    · exact le_refl _
  have hceilmin : ∀ v : ℝ, c.min_value < v →
      i32trunc (c.log_gamma c.min_value) ≤ ⌈c.log_gamma v⌉ := by
    intro v h
    exact le_trans (htrunc _) (Int.ceil_le_ceil (hlogmono _ _ hm h.le))
  refine ⟨?_, ?_, ?_, ?_, ?_⟩
  · intro v h
    rw [hkeypos v h, ho]
    have := hceilmin v h
    omega
  · intro v h
    rw [hkeyneg v h, ho]
    have := hceilmin (-v) (by linarith)
    omega
  · intro v h
    obtain ⟨h1, h2⟩ := abs_le.mp h
    unfold Config.key
    rw [if_neg (not_lt.mpr h1), if_neg (not_lt.mpr h2)]
  · intro v1 v2 h1 h12
    have h2 : c.min_value < v2 := lt_of_lt_of_le h1 h12
    rw [hkeypos v1 h1, hkeypos v2 h2]
    have := Int.ceil_le_ceil (hlogmono v1 v2 (lt_trans hm h1) h12)
    omega
  · intro v1 v2 h12 h2
    have h1 : v1 < -c.min_value := lt_of_le_of_lt h12 h2
    rw [hkeyneg v1 h1, hkeyneg v2 h2]
    have := Int.ceil_le_ceil (hlogmono (-v2) (-v1) (by linarith) (by linarith))
    omega

theorem key_sign_mono_c6_witness :
    (0 : ℝ) < Config.defaults.min_value ∧
    0 < Config.defaults.key 5 ∧
    Config.defaults.key (-5) < 0 ∧
    Config.defaults.key 0 = 0 ∧
    Config.defaults.key 2 ≤ Config.defaults.key 3 ∧
    Config.defaults.key (-3) ≤ Config.defaults.key (-2) := by
  have hm : (0 : ℝ) < Config.defaults.min_value := by
    show (0 : ℝ) < (1e-9 : ℝ)
    norm_num
  have hln : 0 < Config.defaults.gamma_ln := by
    show (0 : ℝ) < Real.log (1 + 2 * 0.01 / (1 - 0.01))
    exact Real.log_pos (by norm_num)
  have h := key_sign_mono_c6 Config.defaults hm hln rfl
  refine ⟨hm, h.1 5 ?_, h.2.1 (-5) ?_, h.2.2.1 0 ?_, h.2.2.2.1 2 3 ?_ (by norm_num),
    h.2.2.2.2 (-3) (-2) (by norm_num) ?_⟩
  · show (1e-9 : ℝ) < 5
    norm_num
  · show (-5 : ℝ) < -(1e-9 : ℝ)
    norm_num
  · show |(0 : ℝ)| ≤ (1e-9 : ℝ)
    rw [abs_zero]
    norm_num
  · show (1e-9 : ℝ) < 2
    norm_num
  · show (-2 : ℝ) < -(1e-9 : ℝ)
    norm_num

theorem lowerBoundFuel_neg (c : Config) (k : ℤ) (hk : k < 0) (hne : k ≠ i32min)
    (fuel : ℕ) :
    lowerBoundFuel c (fuel + 1) k = (lowerBoundFuel c fuel (-k)).map (fun x => -x) := by
  rw [lowerBoundFuel, if_pos hk]
  simp only [i32neg, if_neg hne]

theorem lowerBoundFuel_min_none (c : Config) :
    ∀ fuel : ℕ, lowerBoundFuel c fuel i32min = none := by
  intro fuel
  induction fuel with
  | zero => rfl
  | succ f ih =>
    rw [lowerBoundFuel, if_pos (by norm_num [i32min] : (i32min : ℤ) < 0)]
    rw [show i32neg i32min = i32min from by simp [i32neg], ih]
    rfl

/-- Claim C10: the recursion in `lower_bound` terminates for every key
strictly greater than `i32::MIN` (fuel 2 suffices and the result is
fuel-independent from there on: a negative key is negated once and the
nonnegative branch is non-recursive), and the precondition is necessary: the
wrapped negation maps `i32::MIN` to itself, so at `i32::MIN` the recursion
does not decrease and every amount of fuel is exhausted. -/
theorem lower_bound_term_c10 :
    (∀ (c : Config) (k : ℤ), i32min < k →
      (lowerBoundFuel c 2 k).isSome = true ∧
      ∀ fuel : ℕ, 2 ≤ fuel → lowerBoundFuel c fuel k = lowerBoundFuel c 2 k) ∧
    i32neg i32min = i32min ∧
    (∀ (c : Config) (fuel : ℕ), lowerBoundFuel c fuel i32min = none) := by
  refine ⟨?_, by simp [i32neg], fun c => lowerBoundFuel_min_none c⟩
  intro c k hk
  rcases le_or_lt 0 k with h0 | hneg
  · constructor
    · rw [show (2 : ℕ) = 1 + 1 from rfl, lowerBoundFuel_nonneg c k h0 1]
      rfl
    · intro fuel hf
      obtain ⟨f, rfl⟩ : ∃ f, fuel = f + 1 := ⟨fuel - 1, by omega⟩
      rw [lowerBoundFuel_nonneg c k h0 f, show (2 : ℕ) = 1 + 1 from rfl,
        lowerBoundFuel_nonneg c k h0 1]
  · have hne : k ≠ i32min := ne_of_gt hk
    have h0 : (0 : ℤ) ≤ -k := by omega
    constructor
    · rw [show (2 : ℕ) = 1 + 1 from rfl, lowerBoundFuel_neg c k hneg hne 1,
        show (1 : ℕ) = 0 + 1 from rfl, lowerBoundFuel_nonneg c (-k) h0 0]
      rfl
    · intro fuel hf
      obtain ⟨f, rfl⟩ : ∃ f, fuel = f + 2 := ⟨fuel - 2, by omega⟩
      rw [show f + 2 = (f + 1) + 1 from rfl, lowerBoundFuel_neg c k hneg hne (f + 1),
        lowerBoundFuel_nonneg c (-k) h0 f]
      rw [show (2 : ℕ) = 1 + 1 from rfl, lowerBoundFuel_neg c k hneg hne 1,
        show (1 : ℕ) = 0 + 1 from rfl, lowerBoundFuel_nonneg c (-k) h0 0]

theorem lower_bound_term_c10_witness :
    i32min < (-5 : ℤ) ∧ (lowerBoundFuel Config.defaults 2 (-5)).isSome = true := by
  have h : i32min < (-5 : ℤ) := by norm_num [i32min]
  exact ⟨h, (lower_bound_term_c10.1 Config.defaults (-5) h).1⟩

/-- Claim C4 as stated is false at `key = i32::MIN`: there the source's
recursion never returns (see C10), which the fuel model renders as `none` for
every fuel (in particular the fuel the total model `lower_bound` uses), and
the total model's default value `0` differs from `-lower_bound(-key)`. -/
theorem lower_bound_c4_cex :
    lowerBoundFuel Config.defaults 2 i32min = none ∧
    Config.defaults.lower_bound i32min
      ≠ -(Config.defaults.lower_bound (-i32min)) := by
  refine ⟨lowerBoundFuel_min_none Config.defaults 2, ?_⟩
  have h1 : Config.defaults.lower_bound i32min = (0 : EReal) := by
    rw [Config.lower_bound, lowerBoundFuel_min_none Config.defaults 2]
    rfl
  have h2 : Config.defaults.lower_bound (-i32min)
      = ((Config.defaults.pow_gamma (2 ^ 31 - Config.defaults.offset) : ℝ) : EReal) := by
    rw [Config.lower_bound, show (-i32min : ℤ) = 2 ^ 31 from by norm_num [i32min],
      show (2 : ℕ) = 1 + 1 from rfl,
      lowerBoundFuel_nonneg Config.defaults (2 ^ 31) (by positivity) 1,
      if_neg (by norm_num [i32max] : ((2 : ℤ) ^ 31) ≠ i32max),
      if_neg (by norm_num : ((2 : ℤ) ^ 31) ≠ 0)]
    rfl
  rw [h1, h2]
  intro hcontra
  have hpos : (0 : ℝ) < Config.defaults.pow_gamma (2 ^ 31 - Config.defaults.offset) :=
    Real.exp_pos _
  rw [← EReal.coe_neg, ← EReal.coe_zero] at hcontra
  have := EReal.coe_eq_coe_iff.mp hcontra
  linarith

/-- Claim C4, amended: the negative-key mirror law
`lower_bound(key) = -lower_bound(-key)` holds for `i32::MIN < key < 0` (at
`i32::MIN` the recursion does not terminate, see C10); the other three cases
are as the claim states them: `lower_bound(0) = 0`, `lower_bound(i32::MAX) =
+∞`, and `lower_bound(key) = gamma^(key - offset)` for every other positive
key (for a well-formed configuration). -/
theorem lower_bound_c4_amended (c : Config) (hg : c.gamma_ln = Real.log c.gamma)
    (hγ : 0 < c.gamma) :
    c.lower_bound 0 = ((0 : ℝ) : EReal) ∧
    (∀ k : ℤ, i32min < k → k < 0 → c.lower_bound k = -(c.lower_bound (-k))) ∧
    c.lower_bound i32max = (⊤ : EReal) ∧
    (∀ k : ℤ, 0 < k → k ≠ i32max →
      c.lower_bound k = ((c.gamma ^ (k - c.offset) : ℝ) : EReal)) := by
  refine ⟨?_, ?_, ?_, ?_⟩
  · rw [Config.lower_bound, show (2 : ℕ) = 1 + 1 from rfl,
      lowerBoundFuel_nonneg c 0 le_rfl 1,
      if_neg (by norm_num [i32max] : (0 : ℤ) ≠ i32max), if_pos rfl]
    rfl
  · intro k h1 h2
    have hk : (0 : ℤ) ≤ -k := by omega
    rw [Config.lower_bound, Config.lower_bound,
      show lowerBoundFuel c 2 k = (lowerBoundFuel c 1 (-k)).map (fun x => -x) from
        lowerBoundFuel_neg c k h2 (ne_of_gt h1) 1,
      show lowerBoundFuel c 1 (-k) = _ from lowerBoundFuel_nonneg c (-k) hk 0,
      show lowerBoundFuel c 2 (-k) = _ from lowerBoundFuel_nonneg c (-k) hk 1]
    rfl
  · rw [Config.lower_bound, show (2 : ℕ) = 1 + 1 from rfl,
      lowerBoundFuel_nonneg c i32max (by norm_num [i32max]) 1, if_pos rfl]
    rfl
  · intro k hk hkmax
    rw [Config.lower_bound, show (2 : ℕ) = 1 + 1 from rfl,
      lowerBoundFuel_nonneg c k hk.le 1, if_neg hkmax,
      if_neg (by omega : k ≠ 0), Config.pow_gamma_eq c hg hγ]
    rfl

theorem lower_bound_c4_amended_witness :
    Config.defaults.lower_bound 0 = ((0 : ℝ) : EReal) ∧
    Config.defaults.lower_bound (-5) = -(Config.defaults.lower_bound (-(-5))) ∧
    Config.defaults.lower_bound i32max = (⊤ : EReal) ∧
    Config.defaults.lower_bound 5
      = ((Config.defaults.gamma ^ ((5 : ℤ) - Config.defaults.offset) : ℝ) : EReal) := by
  have hγ : (0 : ℝ) < Config.defaults.gamma := by
    show (0 : ℝ) < 1 + 2 * 0.01 / (1 - 0.01)
    norm_num
  have h := lower_bound_c4_amended Config.defaults rfl hγ
  exact ⟨h.1, h.2.1 (-5) (by norm_num [i32min]) (by norm_num),
    h.2.2.1, h.2.2.2 5 (by norm_num) (by norm_num [i32max])⟩

/-- Claim C9 as stated is false: `add_n` (and `add_key_n`) with repeat count
`n = 0` is a reachable step that leaves `count() == 0` but still updates the
running minimum (and maximum and sum formula) with the sample, so the empty
sketch sentinels are destroyed while the count stays 0. -/
theorem sentinel_inv_c9_cex :
    Reachable ((DDSketch.new Config.defaults).add_n 1 0) ∧
    ((DDSketch.new Config.defaults).add_n 1 0).count = 0 ∧
    ((DDSketch.new Config.defaults).add_n 1 0).min ≠ (⊤ : EReal) := by
  refine ⟨Reachable.add_n _ 1 0 (Reachable.new _), ?_, ?_⟩
  · rw [DDSketch.count_add_n]
    rfl
  · show (if ((1 : ℝ) : EReal) < (⊤ : EReal) then ((1 : ℝ) : EReal) else ⊤) ≠ ⊤
    rw [if_pos (EReal.coe_lt_top 1)]
    exact EReal.coe_ne_top 1

theorem DDSketch.count_merge_eq (s o : DDSketch) (h : s.config = o.config) :
    (s.merge o).1.count = s.count + o.count := by
  rw [DDSketch.merge_of_eq s o h]
  exact Store.count_merge s.store o.store

/-- Claim C9, amended: every state reachable from `new(config)` by `add`,
`merge`, and `add_n`/`add_key_n` with positive repeat counts satisfies:
`count() == 0` implies `min = +∞`, `max = -∞` and `sum = 0` (the claim as
stated fails only for the degenerate repeat count `n = 0`, which updates
min/max while leaving the count at 0). -/
theorem sentinel_inv_c9_amended (s : DDSketch) (h : ReachablePos s)
    (hc : s.count = 0) :
    s.min = (⊤ : EReal) ∧ s.max = (⊥ : EReal) ∧ s.sum = (0 : EReal) := by
  revert hc
  induction h with
  | new c => intro _; exact ⟨rfl, rfl, rfl⟩
  | add s v hr ih =>
    intro hc
    rw [DDSketch.count_add] at hc
    exact absurd hc (by omega)
  | add_n s v n hn hr ih =>
    intro hc
    rw [DDSketch.count_add_n] at hc
    exact absurd hc (by omega)
  | add_key_n s k n hn hr ih =>
    intro hc
    rw [DDSketch.count_add_key_n] at hc
    exact absurd hc (by omega)
  | merge s o hrs hro ihs iho =>
    intro hc
    by_cases hcfg : s.config = o.config
    · rw [DDSketch.count_merge_eq s o hcfg] at hc
      have hs0 : s.count = 0 := by omega
      have ho0 : o.count = 0 := by omega
      obtain ⟨hmn, hmx, hsum⟩ := ihs hs0
      obtain ⟨hmn2, hmx2, hsum2⟩ := iho ho0
      have hs0s : s.store.count = 0 := hs0
      rw [DDSketch.merge_of_eq s o hcfg]
      refine ⟨?_, ?_, ?_⟩
      · show (if s.store.count = 0 then o.min else _) = ⊤
        rw [if_pos hs0s]
        exact hmn2
      · show (if s.store.count = 0 then o.max else _) = ⊥
        rw [if_pos hs0s]
        exact hmx2
      · show s.sum + o.sum = 0
        rw [hsum, hsum2, add_zero]
    · rw [DDSketch.merge_of_ne s o hcfg] at hc ⊢
      exact ihs hc

theorem sentinel_inv_c9_amended_witness :
    (DDSketch.new Config.defaults).count = 0 ∧
    (DDSketch.new Config.defaults).min = (⊤ : EReal) ∧
    (DDSketch.new Config.defaults).max = (⊥ : EReal) ∧
    (DDSketch.new Config.defaults).sum = (0 : EReal) := by
  have h := sentinel_inv_c9_amended (DDSketch.new Config.defaults)
    (ReachablePos.new Config.defaults) rfl
  exact ⟨rfl, h.1, h.2.1, h.2.2⟩

/-- The quantile estimate exactly as the spec words it, to be compared with
`DDSketch.quantile`: `rank = floor(q * (count - 1)) + 1`, `key =
key_at_rank(rank)`, the midpoint representative `2*gamma^(key - offset) /
(1 + gamma)` for `key > 0` (the negated symmetric value for `key < 0`, `0`
for `key = 0`), clamped into `[min, max]`. -/
noncomputable def specQuantileEstimate (s : DDSketch) (q : ℝ) : EReal :=
  let rank : ℕ := (⌊q * ((s.count - 1 : ℕ) : ℝ)⌋).toNat + 1
  let key : ℤ := s.store.key_at_rank rank
  let rep : ℝ :=
    if 0 < key then 2 * s.config.gamma ^ (key - s.config.offset) / (1 + s.config.gamma)
    else if key < 0 then
      -(2 * s.config.gamma ^ (-key - s.config.offset) / (1 + s.config.gamma))
    else 0
  if (rep : EReal) < s.min then s.min
  else if s.max < (rep : EReal) then s.max
  else (rep : EReal)

/-- Claim C1: for every non-empty sketch and every quantile `0 < q < 1`,
`quantile(q)` returns `Some` of the value obtained by computing
`rank = floor(q * (count - 1)) + 1`, looking up `key_at_rank(rank)`,
converting the key with the midpoint representative formula
(`2*gamma^(key-offset)/(1+gamma)` for positive keys, negated symmetric for
negative keys, `0` for key 0) and clamping the result into `[min, max]`
(for a well-formed configuration). -/
theorem quantile_mid_c1 (s : DDSketch) (q : ℝ) (hne : s.count ≠ 0)
    (h0 : 0 < q) (h1 : q < 1)
    (hg : s.config.gamma_ln = Real.log s.config.gamma)
    (hγ : 0 < s.config.gamma) :
    s.quantile q = some (specQuantileEstimate s q) := by
  have hq0 : ¬ q ≤ 0 := not_le.mpr h0
  have hq1 : ¬ 1 ≤ q := not_le.mpr h1
  unfold DDSketch.quantile specQuantileEstimate
  rw [if_neg hne, if_neg hq0, if_neg hq1]
  dsimp only
  have hx : (0 : ℝ) ≤ q * ((s.count - 1 : ℕ) : ℝ) :=
    mul_nonneg h0.le (Nat.cast_nonneg _)
  have hfl : 0 ≤ ⌊q * ((s.count - 1 : ℕ) : ℝ)⌋ := Int.floor_nonneg.mpr hx
  have hrank : (⌊q * ((s.count - 1 : ℕ) : ℝ) + 1⌋).toNat
      = (⌊q * ((s.count - 1 : ℕ) : ℝ)⌋).toNat + 1 := by
    rw [Int.floor_add_one]
    omega
  rw [hrank]
  set K := s.store.key_at_rank ((⌊q * ((s.count - 1 : ℕ) : ℝ)⌋).toNat + 1) with hK
  have hrep : (if K < 0 then
        -2 * s.config.pow_gamma (-(K + s.config.offset)) / (1 + s.config.gamma)
      else if 0 < K then
        2 * s.config.pow_gamma (K - s.config.offset) / (1 + s.config.gamma)
      else 0)
      = (if 0 < K then
        2 * s.config.gamma ^ (K - s.config.offset) / (1 + s.config.gamma)
      else if K < 0 then
        -(2 * s.config.gamma ^ (-K - s.config.offset) / (1 + s.config.gamma))
      else 0) := by
    rcases lt_trichotomy K 0 with h | h | h
    · rw [if_pos h, if_neg (by omega), if_pos h,
        show -(K + s.config.offset) = -K - s.config.offset from by ring,
        Config.pow_gamma_eq _ hg hγ]
      ring
    · rw [h]
      norm_num
    · rw [if_neg (by omega), if_pos h, if_pos h, Config.pow_gamma_eq _ hg hγ]
  rw [hrep]

theorem quantile_mid_c1_witness :
    ((DDSketch.new Config.defaults).add_key_n 1 1).count ≠ 0 ∧
    (0 : ℝ) < 1 / 2 ∧ (1 / 2 : ℝ) < 1 ∧
    ((DDSketch.new Config.defaults).add_key_n 1 1).quantile (1 / 2)
      = some (specQuantileEstimate ((DDSketch.new Config.defaults).add_key_n 1 1)
          (1 / 2)) := by
  have hne : ((DDSketch.new Config.defaults).add_key_n 1 1).count ≠ 0 := by
    rw [DDSketch.count_add_key_n]
    omega
  have hγ : (0 : ℝ) < ((DDSketch.new Config.defaults).add_key_n 1 1).config.gamma := by
    show (0 : ℝ) < 1 + 2 * 0.01 / (1 - 0.01)
    norm_num
  exact ⟨hne, by norm_num, by norm_num,
    quantile_mid_c1 _ _ hne (by norm_num) (by norm_num) rfl hγ⟩

end DDS
